import Mathlib

/-!
Verification of the siser record serialization library.

Byte strings are modelled as `List Nat` (one `Nat` per byte). Go source
functions are translated one-to-one:
  * `isASCII`, `needsLongFormat`, `nonEmptyEndsWithNewline`, `marshalEntry`,
    `marshal`, `unmarshalStep`/`UnmarshalRecord` come from record.go
    (the Entries-based snapshot);
  * `serEntry`, `marshalSer`, `marshalSerSize`, `writeNamed`, `readStepSer`,
    `readRecordSer`, `readSizePrefixed` come from serialize.go;
  * `readStepRdr`/`readRecordRdr` come from reader.go;
  * `intStrLen`, `marshalSizeRG` come from the helper/marshal snapshot
    (unnamed/part_006).
Loops whose Go form is `for { ... }` over a shrinking input are embedded with
an explicit fuel parameter; fuel `length + 1` always suffices because every
iteration consumes at least one byte, which the fuel lemmas below make precise.
-/

namespace Siser

/-- A byte string: one natural number per byte. -/
abbrev Str := List Nat

/-- One key/value pair of a record (record.go: `type Entry struct`). -/
abbrev Entry := Str × Str

/-- Error outcomes of the Go decoding/reading functions. `eof` stands for
io.EOF; `goPanic` marks places where the Go code would panic (negative
allocation size or negative slice bound); `fuel` is unreachable whenever the
fuel is larger than the input length. -/
inductive Err where
  | eof
  | noHeaderNewline
  | lineFormat
  | atoiFail
  | negLength
  | lengthTooBig
  | halfRead
  | unexpectedEOF
  | goPanic
  | fuel
deriving DecidableEq, Repr

/-- serialize.go: `isASCII` — false iff some byte is below 32 or above 127.
Note the code accepts byte 127 itself. -/
def isASCII (s : Str) : Bool :=
  s.all fun b => !(decide (b < 32) || decide (127 < b))

/-- record.go: `needsLongFormat` — value must use the length-prefixed form. -/
def needsLongFormat (s : Str) : Bool :=
  decide (s.length = 0) || decide (120 < s.length) || !isASCII s

/-- record.go: `nonEmptyEndsWithNewline` — true when the string is empty or its
last byte is a newline (the name notwithstanding, empty returns true). -/
def nonEmptyEndsWithNewline (s : Str) : Bool :=
  decide (s.length = 0) || decide (s.getLast? = some 10)

/-- Most-significant-first decimal digits of `n`, as ASCII bytes; the fuel
argument makes the recursion structural (fuel ≥ n suffices). -/
def itoaAux : Nat → Nat → Str
  | 0, _ => []
  | fuel + 1, n => if n = 0 then [] else itoaAux fuel (n / 10) ++ [n % 10 + 48]

/-- strconv.Itoa for a natural number, as ASCII bytes. -/
def itoa (n : Nat) : Str :=
  if n = 0 then [48] else itoaAux n n

/-- Is the byte an ASCII decimal digit? -/
def isDigit (b : Nat) : Bool := decide (48 ≤ b) && decide (b ≤ 57)

/-- Decimal value of a most-significant-first digit string. -/
def digitsToNat (s : Str) : Nat :=
  s.foldl (fun a c => a * 10 + (c - 48)) 0

/-- Parse a non-empty all-digit string. -/
def parseNatDigits (s : Str) : Option Nat :=
  if s ≠ [] && s.all isDigit then some (digitsToNat s) else none

/-- strconv.Atoi: optional sign followed by at least one digit. Overflow of
the machine int is not modelled (all sizes in the claims are small). -/
def atoi (s : Str) : Option Int :=
  match s with
  | [] => none
  | c :: rest =>
    if c = 43 then (parseNatDigits rest).map (fun n => (n : Int))
    else if c = 45 then (parseNatDigits rest).map (fun n => -(n : Int))
    else (parseNatDigits s).map (fun n => (n : Int))

/-- bytes.IndexByte: index of the first occurrence of byte `c`. -/
def indexByte (c : Nat) : Str → Option Nat
  | [] => none
  | b :: rest => if b = c then some 0 else (indexByte c rest).map (· + 1)

/-- record.go `Record.Marshal`, body of the per-entry loop. In the source the
short branch leaves `data` empty, so `nonEmptyEndsWithNewline("")` is true and
no extra newline is appended there; in the long branch `data` is the value. -/
def marshalEntry (k v : Str) : Str :=
  if needsLongFormat v then
    k ++ [58, 43] ++ itoa v.length ++ [10] ++ v ++
      (if nonEmptyEndsWithNewline v then [] else [10])
  else
    k ++ [58, 32] ++ v ++ [10]

/-- record.go `Record.Marshal`: concatenation of the entry encodings, in
order; no record separator is emitted by this snapshot's Marshal. -/
def marshal : List Entry → Str
  | [] => []
  | (k, v) :: rest => marshalEntry k v ++ marshal rest

/-- One iteration of the `for len(d) > 0` loop of record.go
`UnmarshalRecord`. `.ok none` means the loop is done, `.ok (some (d, acc))`
means continue with the rest of the input and the grown entry list. -/
def unmarshalStep (d : Str) (acc : List Entry) :
    Except Err (Option (Str × List Entry)) :=
  if d = [] then .ok none else
  match indexByte 10 d with
  | none => .error .noHeaderNewline
  | some idx =>
    let line := d.take idx
    let d1 := d.drop (idx + 1)
    match indexByte 58 line with
    | none => .error .lineFormat
    | some j =>
      let key := line.take j
      let val := line.drop (j + 1)
      match val with
      | [] => .error .lineFormat
      | kind :: val1 =>
        if kind = 32 then .ok (some (d1, acc ++ [(key, val1)]))
        else if kind ≠ 43 then .error .lineFormat
        else
          match atoi val1 with
          | none => .error .atoiFail
          | some z =>
            if z < 0 then .error .negLength
            else
              let n := z.toNat
              if d1.length < n then .error .lengthTooBig
              else
                let v := d1.take n
                let d2 := d1.drop n
                -- encoder might put optional newline
                let d3 := if d2.head? = some 10 then d2.tail else d2
                .ok (some (d3, acc ++ [(key, v)]))

/-- The `for len(d) > 0` loop of record.go `UnmarshalRecord`, with fuel. -/
def unmarshalGo : Nat → Str → List Entry → Except Err (List Entry)
  | 0, _, _ => .error .fuel
  | fuel + 1, d, acc =>
    match unmarshalStep d acc with
    | .error e => .error e
    | .ok none => .ok acc
    | .ok (some (d1, acc1)) => unmarshalGo fuel d1 acc1

/-- record.go `UnmarshalRecord` (entry list of the resulting record). Each
loop iteration consumes at least one byte, so fuel `d.length + 1` is enough. -/
def UnmarshalRecord (d : Str) : Except Err (List Entry) :=
  unmarshalGo (d.length + 1) d []

/-- Well-formed record keys: no newline and no colon byte. The encoding of a
record is only injective under this condition (the header line is delimited by
the first newline and split at the first colon). -/
def keysOk (entries : List Entry) : Bool :=
  entries.all fun e => !(decide (10 ∈ e.1)) && !(decide (58 ∈ e.1))

/-! ## serialize.go: the Keys/Values snapshot -/

/-- serialize.go: `recordSeparatorWithNL`, the bytes of the line "---". -/
def recordSeparatorWithNL : Str := [45, 45, 45, 10]

/-- serialize.go `Record.Marshal`, the `asData` test of both passes: this
snapshot sends empty values through the short form. -/
def serAsData (v : Str) : Bool := decide (120 < v.length) || !isASCII v

/-- serialize.go `Record.Marshal`, second pass, one entry: long values always
get a trailing newline here. -/
def serEntry (k v : Str) : Str :=
  if serAsData v then k ++ [58, 43] ++ itoa v.length ++ [10] ++ v ++ [10]
  else k ++ [58, 32] ++ v ++ [10]

/-- serialize.go `Record.Marshal` entry loop (second pass). -/
def serEntries : List Entry → Str
  | [] => []
  | (k, v) :: rest => serEntry k v ++ serEntries rest

/-- serialize.go `Record.Marshal`: nil for an entry-less record, otherwise the
entry encodings followed by the record separator unless `noSeparator`. -/
def marshalSer (entries : List Entry) (noSeparator : Bool) : Str :=
  if entries = [] then []
  else serEntries entries ++ (if noSeparator then [] else recordSeparatorWithNL)

/-- serialize.go `Record.Marshal`, first pass, one entry's contribution to the
pre-computed buffer size `n`. -/
def serSizeEntry (k v : Str) : Nat :=
  k.length + 2 +
    (if serAsData v then (itoa v.length).length + 1 else 0) + v.length + 1

/-- serialize.go `Record.Marshal`, first pass over all entries. -/
def serSizeEntries : List Entry → Nat
  | [] => 0
  | (k, v) :: rest => serSizeEntry k v + serSizeEntries rest

/-- serialize.go `Record.Marshal`: the pre-computed output size (the `n`
checked by `panicIf(pos != n)`). -/
def marshalSerSize (entries : List Entry) (noSeparator : Bool) : Nat :=
  serSizeEntries entries + (if noSeparator then 0 else recordSeparatorWithNL.length)

/-! ## unnamed/part_006: intStrLen and the two-pass Entries Marshal -/

/-- The `for n > 999 { l++; n = n / 10 }` loop of `intStrLen`; fuel ≥ n is
always enough since n shrinks by a factor of 10 each round. -/
def intStrLenLoop : Nat → Nat → Nat → Nat
  | 0, _, l => l + 2
  | fuel + 1, n, l => if 999 < n then intStrLenLoop fuel (n / 10) (l + 1) else l + 2

/-- part_006 `intStrLen`: the length strconv.Itoa would produce. -/
def intStrLen (n0 : Int) : Nat :=
  let l : Nat := if n0 < 0 then 2 else 1
  let n : Nat := if n0 < 0 then (-n0).toNat else n0.toNat
  if n ≤ 9 then l
  else if n ≤ 99 then l + 1
  else if n ≤ 999 then l + 2
  else intStrLenLoop n n l

/-- part_006 `Record.Marshal`, first pass, one entry's contribution: in the
long case the header carries `intStrLen` digits and the raw value follows,
with a separator newline unless the value already ends in one. -/
def sizeEntryRG (k v : Str) : Nat :=
  let data : Str := if needsLongFormat v then v else []
  let nVal : Nat :=
    if needsLongFormat v then intStrLen (data.length : Int) else v.length
  k.length + 2 + nVal + 1 + data.length +
    (if nonEmptyEndsWithNewline data then 0 else 1)

/-- part_006 `Record.Marshal`: the pre-computed capacity of the buffer (the
value compared by `panicIf(len(buf) != cap(buf))`); its second pass appends
exactly what record.go's `marshal` produces. -/
def marshalSizeRG : List Entry → Nat
  | [] => 0
  | (k, v) :: rest => sizeEntryRG k v + marshalSizeRG rest

/-! ## Record.Append (record.go) -/

/-- The `for i := 0; i < n; i += 2` pairing loop of `Record.Append`. -/
def pairify : List Str → List Entry
  | a :: b :: rest => (a, b) :: pairify rest
  | _ => []

/-- record.go `Record.Append`: `none` models the panic on zero or an odd
number of arguments; otherwise the key/value pairs are appended in order. -/
def recordAppend (entries : List Entry) (args : List Str) : Option (List Entry) :=
  if args.length = 0 ∨ args.length % 2 ≠ 0 then none
  else some (entries ++ pairify args)

/-! ## Stream reading (reader.go and serialize.go) -/

/-- bufio.ReadString('\n') on a byte stream: the line including its newline
plus the rest, or the whole remainder together with an io.EOF flag when no
newline is left. -/
def readLine (s : Str) : Str × Str × Bool :=
  match indexByte 10 s with
  | some i => (s.take (i + 1), s.drop (i + 1), false)
  | none => (s, [], true)

/-- Outcome of one iteration of a stream `ReadRecord` loop: either the record
is complete (separator seen) or the loop continues with updated state. -/
inductive StepOut where
  | done (nBytesRead : Nat) (keys vals : List Str) (rest : Str)
  | more (rest : Str) (keys vals : List Str) (nBytesRead : Nat)
deriving DecidableEq, Repr

/-- Shared body of one iteration of the separator-mode `ReadRecord` loops of
reader.go and serialize.go after the EOF branch (the two sources differ only
in that branch): line checks, separator test, header split, and for long
values the unconditional read of `n+1` bytes (`n++ // account for '\n'`). -/
def readStepBody (line : Str) (s1 : Str) (keys vals : List Str) (nb : Nat) :
    Except Err StepOut :=
  let n := line.length
  let nb := nb + n
  if n < 3 ∨ line.getLast? ≠ some 10 then .error .lineFormat
  else if line = recordSeparatorWithNL then .ok (.done nb keys vals s1)
  else
    let line := line.take (n - 1)
    match indexByte 58 line with
    | none => .error .lineFormat
    | some j =>
      let key := line.take j
      let val := line.drop (j + 1)
      match val with
      | [] => .error .lineFormat
      | typ :: val1 =>
        if typ = 32 then .ok (.more s1 (keys ++ [key]) (vals ++ [val1]) nb)
        else if typ ≠ 43 then .error .lineFormat
        else
          match atoi val1 with
          | none => .error .atoiFail
          | some z =>
            -- n++ ; account for '\n'
            if z + 1 < 0 then .error .goPanic
            else if z + 1 = 0 then .error .goPanic
            else
              let m := (z + 1).toNat
              if s1.length < m then .error .unexpectedEOF
              else
                let dseg := s1.take m
                let s2 := s1.drop m
                let v := dseg.take (m - 1)
                .ok (.more s2 (keys ++ [key]) (vals ++ [v]) (nb + m))

/-- One iteration of reader.go `ReadRecord` (separator mode): at EOF the
half-read guard compares the number of keys with the number of values. -/
def readStepRdr (s : Str) (keys vals : List Str) (nb : Nat) :
    Except Err StepOut :=
  let (line, s1, eofFlag) := readLine s
  if eofFlag then
    if keys.length ≠ vals.length then .error .halfRead else .error .eof
  else readStepBody line s1 keys vals nb

/-- One iteration of serialize.go `ReadRecord` (separator mode): at EOF any
already-parsed key makes the record half-read. -/
def readStepSer (s : Str) (keys vals : List Str) (nb : Nat) :
    Except Err StepOut :=
  let (line, s1, eofFlag) := readLine s
  if eofFlag then
    if 0 < keys.length then .error .halfRead else .error .eof
  else readStepBody line s1 keys vals nb

/-- The reader.go `ReadRecord` loop, with fuel (length + 1 always suffices). -/
def readRecGoRdr : Nat → Str → List Str → List Str → Nat →
    Except Err (Nat × List Str × List Str × Str)
  | 0, _, _, _, _ => .error .fuel
  | fuel + 1, s, keys, vals, nb =>
    match readStepRdr s keys vals nb with
    | .error e => .error e
    | .ok (.done nb1 keys1 vals1 rest) => .ok (nb1, keys1, vals1, rest)
    | .ok (.more s1 keys1 vals1 nb1) => readRecGoRdr fuel s1 keys1 vals1 nb1

/-- reader.go `ReadRecord` in separator mode on a byte stream: bytes read,
keys, values and the unconsumed remainder of the stream. -/
def readRecordRdr (s : Str) : Except Err (Nat × List Str × List Str × Str) :=
  readRecGoRdr (s.length + 1) s [] [] 0

/-- The serialize.go `ReadRecord` loop, with fuel. -/
def readRecGoSer : Nat → Str → List Str → List Str → Nat →
    Except Err (Nat × List Str × List Str × Str)
  | 0, _, _, _, _ => .error .fuel
  | fuel + 1, s, keys, vals, nb =>
    match readStepSer s keys vals nb with
    | .error e => .error e
    | .ok (.done nb1 keys1 vals1 rest) => .ok (nb1, keys1, vals1, rest)
    | .ok (.more s1 keys1 vals1 nb1) => readRecGoSer fuel s1 keys1 vals1 nb1

/-- serialize.go `ReadRecord` in separator mode on a byte stream. -/
def readRecordSer (s : Str) : Except Err (Nat × List Str × List Str × Str) :=
  readRecGoSer (s.length + 1) s [] [] 0

/-- Reader.Err (reader.go and serialize.go): io.EOF is swallowed, every other
error is surfaced. -/
def readerErr (e : Err) : Option Err := if e = .eof then none else some e

/-! ## Size-prefixed framing (serialize.go Writer, reader.go reader) -/

/-- serialize.go `Writer.WriteNamed`: the bytes put on the stream and the
returned byte count — header line, payload, and a padding newline when the
payload does not already end in one. -/
def writeNamed (d name : Str) : Str × Nat :=
  let header := itoa d.length ++ (if name = [] then [] else 32 :: name) ++ [10]
  let d2 := header ++ d
  let d2 := if d2.getLast? ≠ some 10 then d2 ++ [10] else d2
  (d2, d2.length)

/-- reader.go `ReadSizePrefixed`: data, total bytes read (header plus payload;
a leading padding newline left over from the previous frame is counted too),
optional name, and the unconsumed remainder. `r.Read(d[:])` is modelled as
reading `min n remaining` bytes into the zero-initialised buffer, which is
what a bufio.Reader holding the rest of the stream does. -/
def readSizePrefixed (s : Str) : Except Err (Str × Nat × Str × Str) :=
  let (line, rest, eofFlag) := readLine s
  if eofFlag then .error .eof
  else
    let nb := line.length
    -- the writer may have padded the previous record with '\n'
    let step2 : Except Err (Str × Str × Nat) :=
      if line.length = 1 then
        let (line2, rest2, eofFlag2) := readLine rest
        if eofFlag2 then .error .eof else .ok (line2, rest2, nb + line2.length)
      else .ok (line, rest, nb)
    match step2 with
    | .error e => .error e
    | .ok (line, rest, nb) =>
      let line := line.take (line.length - 1)
      let (size, name) :=
        match indexByte 32 line with
        | none => (line, ([] : Str))
        | some j => (line.take j, line.drop (j + 1))
      match atoi size with
      | none => .error .atoiFail
      | some z =>
        if z < 0 then .error .goPanic
        else
          let n := z.toNat
          let nb := nb + n
          if rest = [] ∧ 0 < n then .error .eof
          else
            let d := rest.take n ++ List.replicate (n - rest.length) 0
            .ok (d, nb, name, rest.drop n)

/-! ## Decimal conversion lemmas -/

theorem itoaAux_zero (f : Nat) : itoaAux f 0 = [] := by
  cases f <;> simp [itoaAux]

theorem itoaAux_congr :
    ∀ n f g, n ≤ f → n ≤ g → itoaAux f n = itoaAux g n := by
  intro n
  induction n using Nat.strong_induction_on with
  | _ n ih =>
    intro f g hf hg
    rcases Nat.eq_zero_or_pos n with hn | hn
    · subst hn; rw [itoaAux_zero, itoaAux_zero]
    · obtain ⟨f1, rfl⟩ : ∃ f1, f = f1 + 1 :=
        ⟨f - 1, by omega⟩
      obtain ⟨g1, rfl⟩ : ∃ g1, g = g1 + 1 :=
        ⟨g - 1, by omega⟩
      have hdiv : n / 10 < n := Nat.div_lt_self hn (by omega)
      simp only [itoaAux, if_neg (Nat.pos_iff_ne_zero.mp hn)]
      rw [ih (n / 10) hdiv f1 g1 (by omega) (by omega)]

theorem itoaAux_mem_digits :
    ∀ n f, n ≤ f → ∀ b ∈ itoaAux f n, 48 ≤ b ∧ b ≤ 57 := by
  intro n
  induction n using Nat.strong_induction_on with
  | _ n ih =>
    intro f hf b hb
    rcases Nat.eq_zero_or_pos n with hn | hn
    · subst hn; rw [itoaAux_zero] at hb; cases hb
    · obtain ⟨f1, rfl⟩ : ∃ f1, f = f1 + 1 := ⟨f - 1, by omega⟩
      have hdiv : n / 10 < n := Nat.div_lt_self hn (by omega)
      simp only [itoaAux, if_neg (Nat.pos_iff_ne_zero.mp hn), List.mem_append,
        List.mem_singleton] at hb
      rcases hb with hb | hb
      · exact ih (n / 10) hdiv f1 (by omega) b hb
      · have := Nat.mod_lt n (show 0 < 10 by omega)
        omega

theorem itoa_mem_digits (n : Nat) : ∀ b ∈ itoa n, 48 ≤ b ∧ b ≤ 57 := by
  intro b hb
  unfold itoa at hb
  by_cases hn : n = 0
  · simp [hn] at hb; omega
  · rw [if_neg hn] at hb
    exact itoaAux_mem_digits n n (le_refl n) b hb

theorem itoa_not_mem_10 (n : Nat) : ¬ 10 ∈ itoa n := by
  intro h; have := itoa_mem_digits n 10 h; omega

theorem itoa_not_mem_58 (n : Nat) : ¬ 58 ∈ itoa n := by
  intro h; have := itoa_mem_digits n 58 h; omega

theorem itoa_ne_nil (n : Nat) : itoa n ≠ [] := by
  unfold itoa
  by_cases hn : n = 0
  · simp [hn]
  · rw [if_neg hn]
    obtain ⟨f1, hf⟩ : ∃ f1, n = f1 + 1 := ⟨n - 1, by omega⟩
    conv_lhs => rw [hf]
    simp [itoaAux, hn]

theorem digitsToNat_append_last (a : Str) (d : Nat) :
    digitsToNat (a ++ [d]) = digitsToNat a * 10 + (d - 48) := by
  simp [digitsToNat, List.foldl_append]

theorem digitsToNat_itoaAux :
    ∀ n f, n ≤ f → digitsToNat (itoaAux f n) = n := by
  intro n
  induction n using Nat.strong_induction_on with
  | _ n ih =>
    intro f hf
    rcases Nat.eq_zero_or_pos n with hn | hn
    · subst hn; rw [itoaAux_zero]; rfl
    · obtain ⟨f1, rfl⟩ : ∃ f1, f = f1 + 1 := ⟨f - 1, by omega⟩
      have hdiv : n / 10 < n := Nat.div_lt_self hn (by omega)
      simp only [itoaAux, if_neg (Nat.pos_iff_ne_zero.mp hn)]
      rw [digitsToNat_append_last, ih (n / 10) hdiv f1 (by omega)]
      have := Nat.div_add_mod n 10
      omega

theorem digitsToNat_itoa (n : Nat) : digitsToNat (itoa n) = n := by
  unfold itoa
  by_cases hn : n = 0
  · simp [hn]; rfl
  · rw [if_neg hn]; exact digitsToNat_itoaAux n n (le_refl n)

theorem parseNatDigits_itoa (n : Nat) : parseNatDigits (itoa n) = some n := by
  have hne := itoa_ne_nil n
  have hall : (itoa n).all isDigit = true := by
    rw [List.all_eq_true]
    intro b hb
    have := itoa_mem_digits n b hb
    simp [isDigit]; omega
  simp [parseNatDigits, hne, hall, digitsToNat_itoa]

theorem atoi_itoa (n : Nat) : atoi (itoa n) = some (n : Int) := by
  obtain ⟨c, rest, hc⟩ : ∃ c rest, itoa n = c :: rest := by
    cases h : itoa n with
    | nil => exact absurd h (itoa_ne_nil n)
    | cons c rest => exact ⟨c, rest, rfl⟩
  have hdigit := itoa_mem_digits n c (by rw [hc]; exact List.mem_cons_self c rest)
  have h43 : c ≠ 43 := by omega
  have h45 : c ≠ 45 := by omega
  have := parseNatDigits_itoa n
  rw [hc] at this ⊢
  simp [atoi, h43, h45, this]

/-! ## Length of the decimal representation (for intStrLen) -/

theorem itoa_length_le9 (n : Nat) (h : n ≤ 9) : (itoa n).length = 1 := by
  unfold itoa
  by_cases hn : n = 0
  · simp [hn]
  · rw [if_neg hn]
    obtain ⟨f1, hf⟩ : ∃ f1, n = f1 + 1 := ⟨n - 1, by omega⟩
    subst hf
    have hdiv : (f1 + 1) / 10 = 0 := by omega
    simp [itoaAux, hdiv, itoaAux_zero]

theorem itoa_length_rec (n : Nat) (h : 10 ≤ n) :
    (itoa n).length = (itoa (n / 10)).length + 1 := by
  have hn : n ≠ 0 := by omega
  have hd : n / 10 ≠ 0 := by
    have : 1 ≤ n / 10 := (Nat.le_div_iff_mul_le (by omega)).mpr (by omega)
    omega
  obtain ⟨f1, hf⟩ : ∃ f1, n = f1 + 1 := ⟨n - 1, by omega⟩
  subst hf
  unfold itoa
  rw [if_neg hn, if_neg hd]
  simp only [itoaAux, if_neg hn]
  rw [itoaAux_congr ((f1 + 1) / 10) f1 ((f1 + 1) / 10) (by omega) (le_refl _)]
  simp

theorem itoa_length_le99 (n : Nat) (h1 : 10 ≤ n) (h2 : n ≤ 99) :
    (itoa n).length = 2 := by
  rw [itoa_length_rec n h1, itoa_length_le9 (n / 10) (by omega)]

theorem itoa_length_le999 (n : Nat) (h1 : 100 ≤ n) (h2 : n ≤ 999) :
    (itoa n).length = 3 := by
  rw [itoa_length_rec n (by omega)]
  rw [itoa_length_le99 (n / 10) (by omega) (by omega)]

theorem intStrLenLoop_spec :
    ∀ fuel n l, 100 ≤ n → n ≤ fuel →
      intStrLenLoop fuel n l + 1 = l + (itoa n).length := by
  intro fuel
  induction fuel with
  | zero => intro n l h1 h2; omega
  | succ f ih =>
    intro n l h1 h2
    by_cases h : 999 < n
    · simp only [intStrLenLoop, if_pos h]
      have hr := itoa_length_rec n (by omega)
      have hd1 : 100 ≤ n / 10 := (Nat.le_div_iff_mul_le (by omega)).mpr (by omega)
      have hd2 : n / 10 ≤ f := by
        have : n / 10 < n := Nat.div_lt_self (by omega) (by omega)
        omega
      have := ih (n / 10) (l + 1) hd1 hd2
      omega
    · simp only [intStrLenLoop, if_neg h]
      rw [itoa_length_le999 n h1 (by omega)]

theorem intStrLen_itoa (n : Nat) : intStrLen (n : Int) = (itoa n).length := by
  have hneg : ¬ ((n : Int) < 0) := by omega
  simp only [intStrLen, if_neg hneg, Int.toNat_natCast]
  by_cases h9 : n ≤ 9
  · rw [if_pos h9, itoa_length_le9 n h9]
  · rw [if_neg h9]
    by_cases h99 : n ≤ 99
    · rw [if_pos h99, itoa_length_le99 n (by omega) h99]
    · rw [if_neg h99]
      by_cases h999 : n ≤ 999
      · rw [if_pos h999, itoa_length_le999 n (by omega) h999]
      · rw [if_neg h999]
        have := intStrLenLoop_spec n n 1 (by omega) (le_refl n)
        omega

/-! ## Parsing helper lemmas -/

theorem indexByte_append_cons (c : Nat) (a b : Str) (h : ¬ c ∈ a) :
    indexByte c (a ++ c :: b) = some a.length := by
  induction a with
  | nil => simp [indexByte]
  | cons x xs ih =>
    simp only [List.cons_append, indexByte]
    have hx : x ≠ c := by
      intro hxc; exact h (hxc ▸ List.mem_cons_self x xs)
    rw [if_neg hx]
    rw [show xs.append (c :: b) = xs ++ c :: b from rfl]
    rw [ih (fun hc => h (List.mem_cons_of_mem x hc))]
    simp

theorem drop_after_append (a : Str) (c : Nat) (b : Str) :
    (a ++ c :: b).drop (a.length + 1) = b := by
  have h : a ++ c :: b = (a ++ [c]) ++ b := by simp
  have hl : (a ++ [c]).length = a.length + 1 := by simp
  rw [h, ← hl, List.drop_left]

theorem take_at_append (a : Str) (c : Nat) (b : Str) :
    (a ++ c :: b).take a.length = a := List.take_left a (c :: b)

theorem isASCII_bounds (v : Str) (h : isASCII v = true) :
    ∀ b ∈ v, 32 ≤ b ∧ b ≤ 127 := by
  rw [isASCII, List.all_eq_true] at h
  intro b hb
  have := h b hb
  simp only [Bool.or_eq_false_iff, Bool.not_eq_true', decide_eq_false_iff_not,
    Bool.not_or, Bool.not_eq_true, decide_eq_true_eq] at this
  simp at this
  omega

theorem isASCII_not_mem_10 (v : Str) (h : isASCII v = true) : ¬ 10 ∈ v := by
  intro hm; have := isASCII_bounds v h 10 hm; omega

theorem needsLongFormat_false (v : Str) (h : needsLongFormat v = false) :
    v ≠ [] ∧ v.length ≤ 120 ∧ isASCII v = true := by
  simp [needsLongFormat] at h
  exact ⟨h.1.1, h.1.2, h.2⟩

theorem keysOk_cons (k v : Str) (tl : List Entry) :
    keysOk ((k, v) :: tl) = true ↔
      ¬ 10 ∈ k ∧ ¬ 58 ∈ k ∧ keysOk tl = true := by
  simp [keysOk, and_assoc]

theorem marshalEntry_shape (k v : Str) : ∃ X, marshalEntry k v = k ++ 58 :: X := by
  unfold marshalEntry
  by_cases h : needsLongFormat v
  · exact ⟨43 :: itoa v.length ++ [10] ++ v ++
      (if nonEmptyEndsWithNewline v then [] else [10]), by simp [h]⟩
  · exact ⟨32 :: v ++ [10], by simp [h]⟩

theorem marshal_head_ne (entries : List Entry) (hk : keysOk entries = true) :
    (marshal entries).head? ≠ some 10 := by
  cases entries with
  | nil => simp [marshal]
  | cons e tl =>
    obtain ⟨k, v⟩ := e
    obtain ⟨hk10, _, _⟩ := (keysOk_cons k v tl).mp hk
    obtain ⟨X, hX⟩ := marshalEntry_shape k v
    simp only [marshal, hX]
    cases k with
    | nil => simp
    | cons a k1 =>
      simp only [List.cons_append, List.head?_cons, ne_eq, Option.some.injEq]
      intro ha
      exact hk10 (ha ▸ List.mem_cons_self a k1)

theorem marshalEntry_length_pos (k v : Str) : 0 < (marshalEntry k v).length := by
  unfold marshalEntry
  split <;> simp

/-- Parsing one encoded entry off the front of the input consumes exactly the
entry's encoding and appends the entry, provided the key has no newline or
colon byte and the remaining input does not begin with a newline. -/
theorem unmarshalStep_entry (k v rest : Str) (acc : List Entry)
    (hk10 : ¬ 10 ∈ k) (hk58 : ¬ 58 ∈ k) (hrest : rest.head? ≠ some 10) :
    unmarshalStep (marshalEntry k v ++ rest) acc =
      .ok (some (rest, acc ++ [(k, v)])) := by
  by_cases hlong : needsLongFormat v
  · -- long form
    set I := itoa v.length with hI
    set sep : Str := if nonEmptyEndsWithNewline v then [] else [10] with hsep
    have hshape : marshalEntry k v ++ rest =
        (k ++ 58 :: 43 :: I) ++ 10 :: (v ++ sep ++ rest) := by
      simp [marshalEntry, hlong, ← hI, ← hsep]
    have hA10 : ¬ 10 ∈ k ++ 58 :: 43 :: I := by
      simp only [List.mem_append, List.mem_cons]
      push_neg
      exact ⟨hk10, by omega, by omega, itoa_not_mem_10 v.length⟩
    have hk58' : ¬ 58 ∈ k := hk58
    rw [hshape]
    unfold unmarshalStep
    rw [if_neg (by simp)]
    rw [indexByte_append_cons 10 _ _ hA10]
    simp only [take_at_append, drop_after_append]
    rw [show (k ++ 58 :: 43 :: I) = k ++ 58 :: (43 :: I) from rfl]
    rw [indexByte_append_cons 58 k (43 :: I) hk58']
    simp only [take_at_append, drop_after_append]
    rw [show atoi I = some (v.length : Int) from atoi_itoa v.length]
    simp only [show ¬ ((43 : Nat) = 32) from by omega, if_false, ne_eq,
      show ¬ ((43 : Nat) ≠ 43) from by omega, not_false_eq_true, if_neg,
      show ¬ ((v.length : Int) < 0) from by omega, Int.toNat_natCast]
    rw [if_neg (by simp [List.append_assoc])]
    have hvtake : (v ++ sep ++ rest).take v.length = v := by
      rw [List.append_assoc]; exact List.take_left v (sep ++ rest)
    have hvdrop : (v ++ sep ++ rest).drop v.length = sep ++ rest := by
      rw [List.append_assoc]; exact List.drop_left v (sep ++ rest)
    rw [hvtake, hvdrop]
    by_cases hnl : nonEmptyEndsWithNewline v
    · have : sep = [] := by simp [hsep, hnl]
      rw [this]
      simp only [List.nil_append]
      rw [if_neg hrest]
    · have : sep = [10] := by simp [hsep, hnl]
      rw [this]
      simp
  · -- short form
    have hascii : isASCII v = true := (needsLongFormat_false v
      (Bool.not_eq_true _ ▸ by simpa using hlong)).2.2
    have hv10 : ¬ 10 ∈ v := isASCII_not_mem_10 v hascii
    have hshape : marshalEntry k v ++ rest =
        (k ++ 58 :: 32 :: v) ++ 10 :: rest := by
      simp [marshalEntry, hlong]
    have hA10 : ¬ 10 ∈ k ++ 58 :: 32 :: v := by
      simp only [List.mem_append, List.mem_cons]
      push_neg
      exact ⟨hk10, by omega, by omega, hv10⟩
    rw [hshape]
    unfold unmarshalStep
    rw [if_neg (by simp)]
    rw [indexByte_append_cons 10 _ _ hA10]
    simp only [take_at_append, drop_after_append]
    rw [show (k ++ 58 :: 32 :: v) = k ++ 58 :: (32 :: v) from rfl]
    rw [indexByte_append_cons 58 k (32 :: v) hk58]
    simp only [take_at_append, drop_after_append]
    simp

theorem unmarshalGo_marshal :
    ∀ (entries acc : List Entry) (f : Nat),
      keysOk entries = true → (marshal entries).length < f →
      unmarshalGo f (marshal entries) acc = .ok (acc ++ entries) := by
  intro entries
  induction entries with
  | nil =>
    intro acc f _ hf
    obtain ⟨f1, rfl⟩ : ∃ f1, f = f1 + 1 := ⟨f - 1, by omega⟩
    simp [marshal, unmarshalGo, unmarshalStep]
  | cons e tl ih =>
    intro acc f hk hf
    obtain ⟨k, v⟩ := e
    obtain ⟨hk10, hk58, hktl⟩ := (keysOk_cons k v tl).mp hk
    obtain ⟨f1, rfl⟩ : ∃ f1, f = f1 + 1 := ⟨f - 1, by omega⟩
    have hstep := unmarshalStep_entry k v (marshal tl) acc hk10 hk58
      (marshal_head_ne tl hktl)
    have hlen : (marshal tl).length < f1 := by
      have hpos := marshalEntry_length_pos k v
      simp only [marshal, List.length_append] at hf
      omega
    simp only [marshal, unmarshalGo, hstep]
    rw [ih (acc ++ [(k, v)]) f1 hktl hlen]
    simp

/-- C1: decoding the encoder's output recovers the record's entries exactly —
same entries, same order, keys and values byte for byte — for arbitrary values
(empty, longer than 120 bytes, non-ASCII, newline-containing), provided the
keys contain no newline and no colon byte. -/
theorem marshal_unmarshal_roundtrip (entries : List Entry)
    (hk : keysOk entries = true) :
    UnmarshalRecord (marshal entries) = .ok entries := by
  unfold UnmarshalRecord
  simpa using
    unmarshalGo_marshal entries [] ((marshal entries).length + 1) hk (by omega)

/-- Witness for C1 at a record with a short ASCII value, a long value with
an inner newline and a non-ASCII byte, an empty value, and a long value ending
in a newline. -/
theorem marshal_unmarshal_roundtrip_witness :
    keysOk [([107, 101, 121], [118, 97, 108]), ([107], [10, 200]),
      ([101], []), ([104], [97, 10])] = true ∧
    UnmarshalRecord (marshal [([107, 101, 121], [118, 97, 108]),
      ([107], [10, 200]), ([101], []), ([104], [97, 10])]) =
      .ok [([107, 101, 121], [118, 97, 108]), ([107], [10, 200]),
        ([101], []), ([104], [97, 10])] :=
  ⟨by decide, marshal_unmarshal_roundtrip _ (by decide)⟩

/-! ## C3: the short-form decision -/

/-- C3 counterexample: a value consisting of the single byte 127 (DEL, outside
the claimed printable range [32,127)) is nevertheless accepted by the code's
ASCII test, so it encodes in short form, contradicting the claim that any byte
outside [32,127) forces long form. -/
theorem short_form_127_counterexample :
    needsLongFormat [127] = false ∧
      ¬ (∀ b ∈ ([127] : Str), 32 ≤ b ∧ b < 127) := by
  exact ⟨rfl, by decide⟩

/-- C3 amended: a value encodes in short form iff it is non-empty, at most 120
bytes, and every byte lies in the inclusive range [32,127] (byte 127 is
accepted by isASCII); 120 bytes is still short, 121 long, empty long. -/
theorem short_form_characterization (v : Str) :
    needsLongFormat v = false ↔
      v ≠ [] ∧ v.length ≤ 120 ∧ ∀ b ∈ v, 32 ≤ b ∧ b ≤ 127 := by
  constructor
  · intro h
    obtain ⟨h1, h2, h3⟩ := needsLongFormat_false v h
    exact ⟨h1, h2, isASCII_bounds v h3⟩
  · rintro ⟨h1, h2, h3⟩
    simp only [needsLongFormat, Bool.or_eq_false_iff, Bool.not_eq_true',
      decide_eq_false_iff_not, Bool.not_eq_false]
    refine ⟨⟨fun h0 => h1 (List.length_eq_zero.mp h0), by omega⟩, ?_⟩
    have hascii : isASCII v = true := by
      rw [isASCII, List.all_eq_true]
      intro b hb
      have := h3 b hb
      simp
      omega
    simp [hascii]

/-! ## C5: the long-form separator newline -/

/-- C5 counterexample: the empty value marshals in long form as "k:+0\n" with
no appended separator newline (nonEmptyEndsWithNewline returns true on the
empty string), not as the claimed "k:+0\n\n". -/
theorem empty_long_value_counterexample :
    marshal [([107], [])] = [107, 58, 43, 48, 10] ∧
      marshal [([107], [])] ≠ [107, 58, 43, 48, 10, 10] := by
  exact ⟨rfl, by decide⟩

/-- C5 amended: in long form the encoder emits "key:+len\n" then the value's
bytes, and appends one separator newline iff the value is non-empty and does
not already end in a newline byte (so the empty value's encoding is
"key:+0\n", with no appended newline). -/
theorem long_form_layout (k v : Str) (h : needsLongFormat v = true) :
    marshalEntry k v =
      k ++ [58, 43] ++ itoa v.length ++ [10] ++ v ++
        (if v = [] ∨ v.getLast? = some 10 then [] else [10]) := by
  have heq : (if nonEmptyEndsWithNewline v then ([] : Str) else [10]) =
      (if v = [] ∨ v.getLast? = some 10 then ([] : Str) else [10]) := by
    by_cases hc : v = [] ∨ v.getLast? = some 10
    · rw [if_pos hc, if_pos ?_]
      rcases hc with hc | hc
      · simp [nonEmptyEndsWithNewline, hc]
      · simp [nonEmptyEndsWithNewline, hc]
    · rw [if_neg hc, if_neg ?_]
      push_neg at hc
      simp [nonEmptyEndsWithNewline, List.length_eq_zero, hc.1, hc.2]
  simp only [marshalEntry, if_pos h, heq]

/-- Witness for C5 at key "k" and the one-byte non-ASCII value 200: long form,
value does not end in a newline, so a separator newline is appended. -/
theorem long_form_layout_witness :
    needsLongFormat [200] = true ∧
      marshalEntry [107] [200] = [107, 58, 43, 49, 10, 200, 10] :=
  ⟨by decide, by rw [long_form_layout [107] [200] (by decide)]; decide⟩

/-! ## C8: malformed inputs -/

/-- C8: UnmarshalRecord rejects all seven malformed inputs of the spec:
"ha" (no header newline), "ha\n" (no colon), "ha:\n" (empty tag),
"ha:_\n" (unknown tag), "ha:+32\nma" (declared length exceeds remaining
data), "ha:+2\nmara" (trailing garbage, which fails as a headerless line),
and "ha:+los\nma" (non-numeric length). -/
theorem unmarshal_malformed_inputs_fail :
    UnmarshalRecord [104, 97] = .error .noHeaderNewline ∧
    UnmarshalRecord [104, 97, 10] = .error .lineFormat ∧
    UnmarshalRecord [104, 97, 58, 10] = .error .lineFormat ∧
    UnmarshalRecord [104, 97, 58, 95, 10] = .error .lineFormat ∧
    UnmarshalRecord [104, 97, 58, 43, 51, 50, 10, 109, 97] =
      .error .lengthTooBig ∧
    UnmarshalRecord [104, 97, 58, 43, 50, 10, 109, 97, 114, 97] =
      .error .noHeaderNewline ∧
    UnmarshalRecord [104, 97, 58, 43, 108, 111, 115, 10, 109, 97] =
      .error .atoiFail :=
  ⟨rfl, rfl, rfl, rfl, rfl, rfl, rfl⟩

/-! ## C9: Record.Append -/

theorem pairify_length :
    ∀ (args : List Str), args.length % 2 = 0 →
      (pairify args).length = args.length / 2
  | [] => by intro _; simp [pairify]
  | [a] => by intro h; simp at h
  | a :: b :: rest => by
    intro h
    have hr : rest.length % 2 = 0 := by simp at h; omega
    simp only [pairify, List.length_cons, pairify_length rest hr]
    omega

theorem pairify_get :
    ∀ (args : List Str) (i : Nat) (a b : Str),
      args[2 * i]? = some a → args[2 * i + 1]? = some b →
      (pairify args)[i]? = some (a, b)
  | [], i, a, b => by simp
  | [x], i, a, b => by
    intro _ h2
    rw [show 2 * i + 1 = (2 * i) + 1 from rfl, List.getElem?_cons_succ] at h2
    simp at h2
  | x :: y :: rest, i, a, b => by
    cases i with
    | zero =>
      intro h1 h2
      simp only [Nat.mul_zero, List.getElem?_cons_zero, Option.some.injEq] at h1
      rw [show 2 * 0 + 1 = 0 + 1 from rfl, List.getElem?_cons_succ,
        List.getElem?_cons_zero] at h2
      simp only [Option.some.injEq] at h2
      subst h1; subst h2
      simp [pairify]
    | succ j =>
      intro h1 h2
      rw [show 2 * (j + 1) = (2 * j + 1) + 1 by ring, List.getElem?_cons_succ,
        List.getElem?_cons_succ] at h1
      rw [show 2 * (j + 1) + 1 = ((2 * j + 1) + 1) + 1 by ring,
        List.getElem?_cons_succ, List.getElem?_cons_succ] at h2
      simp only [pairify, List.getElem?_cons_succ]
      exact pairify_get rest j a b h1 h2

/-- C9: Record.Append panics exactly on zero or an odd number of arguments;
with a positive even number of arguments it appends the argument pairs, in
argument order, after the previously appended entries, which it leaves
unchanged. -/
theorem append_pairs_spec (entries : List Entry) (args : List Str) :
    (recordAppend entries args = none ↔
      args.length = 0 ∨ args.length % 2 = 1) ∧
    (args.length % 2 = 0 → args ≠ [] →
      recordAppend entries args = some (entries ++ pairify args) ∧
      (pairify args).length = args.length / 2 ∧
      ∀ i a b, args[2 * i]? = some a → args[2 * i + 1]? = some b →
        (pairify args)[i]? = some (a, b)) := by
  constructor
  · unfold recordAppend
    split
    next h =>
      simp only [true_iff]
      rcases h with h | h
      · exact Or.inl h
      · exact Or.inr (by omega)
    next h =>
      simp only [reduceCtorEq, false_iff]
      push_neg at h ⊢
      omega
  · intro h0 hne
    have hcond : ¬ (args.length = 0 ∨ args.length % 2 ≠ 0) := by
      push_neg
      exact ⟨fun hl => hne (List.length_eq_zero.mp hl), h0⟩
    refine ⟨by rw [recordAppend, if_neg hcond], pairify_length args h0,
      pairify_get args⟩

/-- Witness for C9 at two existing entries and four arguments. -/
theorem append_pairs_spec_witness :
    ([([97], [98])] : List Entry) ≠ [] ∧
    recordAppend [([97], [98])] [[107], [118], [108], [119]] =
      some [([97], [98]), ([107], [118]), ([108], [119])] := by
  refine ⟨by decide, ?_⟩
  have h := (append_pairs_spec [([97], [98])] [[107], [118], [108], [119]]).2
    (by decide) (by decide)
  rw [h.1]
  rfl

/-! ## C10: the entry-less record -/

/-- C10: a record with zero entries marshals to the empty byte sequence in
both Marshal snapshots — in particular no separator sentinel is emitted even
in separator framing — so it contributes no bytes to a stream, and a reader
that then reaches end of stream reports the clean io.EOF condition (which
Reader.Err maps to nil) instead of observing a record: the entry-less record
is not round-trippable through the stream. -/
theorem empty_record_marshals_nothing :
    marshalSer [] false = [] ∧ marshalSer [] true = [] ∧ marshal [] = [] ∧
    (∀ rest : Str,
      readRecordSer (marshalSer [] false ++ rest) = readRecordSer rest) ∧
    readRecordSer [] = .error .eof ∧ readerErr .eof = none :=
  ⟨rfl, rfl, rfl, fun _ => rfl, rfl, rfl⟩

/-! ## C4: end-of-stream with a half-read record -/

/-- C4 (code bug in reader.go): on the separator-mode stream "k: v" followed
by end of stream — one entry parsed, no "---" terminator — reader.go's
ReadRecord returns plain io.EOF (its half-read guard compares the number of
keys with the number of values, which the loop always keeps equal), and
Reader.Err reports nil; the serialize.go snapshot returns the distinct
half-read error for the same stream, as the claim requires. -/
theorem half_read_guard_dead :
    readRecordRdr [107, 58, 32, 118, 10] = .error .eof ∧
    readRecordSer [107, 58, 32, 118, 10] = .error .halfRead ∧
    readerErr .eof = none ∧ readerErr .halfRead = some .halfRead :=
  ⟨rfl, rfl, rfl, rfl⟩

/-! ## C2: size-prefix framing offsets -/

/-- C2 (code bug in reader.go/serialize.go): write the payloads "ab" and "cd"
as size-prefixed frames. Each write returns 5 bytes (header "2\n", payload,
padding newline since the payload does not end in '\n'), but the reader's
byte count for the first frame is 4 — the padding newline is only consumed,
and counted, at the start of the second frame's read — so the second record's
reported start offset is 4 while the cumulative write count is 5. -/
theorem size_prefixed_offset_bug :
    writeNamed [97, 98] [] = ([50, 10, 97, 98, 10], 5) ∧
    writeNamed [99, 100] [] = ([50, 10, 99, 100, 10], 5) ∧
    readSizePrefixed [50, 10, 97, 98, 10, 50, 10, 99, 100, 10] =
      .ok ([97, 98], 4, [], [10, 50, 10, 99, 100, 10]) ∧
    readSizePrefixed [10, 50, 10, 99, 100, 10] =
      .ok ([99, 100], 5, [], [10]) ∧
    (4 : Nat) ≠ 5 :=
  ⟨rfl, rfl, rfl, rfl, by decide⟩

/-! ## C6: the pre-computed output size -/

theorem serEntry_length (k v : Str) :
    (serEntry k v).length = serSizeEntry k v := by
  unfold serEntry serSizeEntry
  split <;> simp <;> omega

theorem serEntries_length :
    ∀ entries : List Entry, (serEntries entries).length = serSizeEntries entries
  | [] => rfl
  | (k, v) :: rest => by
    simp only [serEntries, serSizeEntries, List.length_append,
      serEntry_length, serEntries_length rest]

theorem marshalEntry_length (k v : Str) :
    (marshalEntry k v).length = sizeEntryRG k v := by
  unfold marshalEntry sizeEntryRG
  by_cases h : needsLongFormat v
  · simp only [if_pos h, intStrLen_itoa]
    split <;> simp <;> omega
  · simp only [if_neg h]
    simp [nonEmptyEndsWithNewline]
    omega

theorem marshal_length (entries : List Entry) :
    (marshal entries).length = marshalSizeRG entries := by
  induction entries with
  | nil => rfl
  | cons e tl ih =>
    obtain ⟨k, v⟩ := e
    simp only [marshal, marshalSizeRG, List.length_append, marshalEntry_length, ih]

/-- C6: for every non-empty record the size pre-computed by the first pass of
Marshal equals the number of bytes the second pass produces — both in the
serialize.go snapshot (so its panicIf(pos != n) assertion never fires) and in
the part_006 snapshot using intStrLen (so len(buf) == cap(buf) always). -/
theorem presize_exact (entries : List Entry) (noSep : Bool)
    (h : entries ≠ []) :
    (marshalSer entries noSep).length = marshalSerSize entries noSep ∧
    (marshal entries).length = marshalSizeRG entries := by
  refine ⟨?_, marshal_length entries⟩
  unfold marshalSer marshalSerSize
  rw [if_neg h]
  cases noSep <;> simp [serEntries_length, recordSeparatorWithNL]

/-- Witness for C6 at a one-entry record with a long value, separator on. -/
theorem presize_exact_witness :
    ([([107], [200])] : List Entry) ≠ [] ∧
    (marshalSer [([107], [200])] false).length =
      marshalSerSize [([107], [200])] false ∧
    (marshal [([107], [200])]).length = marshalSizeRG [([107], [200])] :=
  ⟨by decide, presize_exact [([107], [200])] false (by decide)⟩

/-! ## C7: the stream parser versus the in-memory decoder -/

theorem readLine_append_cons (a b : Str) (h : ¬ 10 ∈ a) :
    readLine (a ++ 10 :: b) = (a ++ [10], b, false) := by
  unfold readLine
  rw [indexByte_append_cons 10 a b h]
  dsimp only
  have h1 : a ++ 10 :: b = (a ++ [10]) ++ b := by simp
  have h2 : a.length + 1 = (a ++ [10]).length := by simp
  rw [h1, h2, List.take_left, List.drop_left]

/-- Reading one marshalled entry from a separator-mode stream with the
reader.go loop body: works when every long-form value is non-empty and does
not end in a newline, because the loop always consumes n+1 bytes after a
long header while Marshal appends the extra newline exactly in that case. -/
theorem readStepRdr_entry (k v s : Str) (keys vals : List Str) (nb : Nat)
    (hk10 : ¬ 10 ∈ k) (hk58 : ¬ 58 ∈ k)
    (hsep : needsLongFormat v = true → nonEmptyEndsWithNewline v = false) :
    readStepRdr (marshalEntry k v ++ s) keys vals nb =
      .ok (.more s (keys ++ [k]) (vals ++ [v])
        (nb + (marshalEntry k v).length)) := by
  by_cases hlong : needsLongFormat v
  · -- long form; the separator newline is present by hsep
    have hnl : nonEmptyEndsWithNewline v = false := hsep hlong
    have hIne := itoa_ne_nil v.length
    have hshape : marshalEntry k v ++ s =
        (k ++ 58 :: 43 :: itoa v.length) ++ 10 :: (v ++ 10 :: s) := by
      simp [marshalEntry, hlong, hnl]
    have hA10 : ¬ 10 ∈ k ++ 58 :: 43 :: itoa v.length := by
      simp only [List.mem_append, List.mem_cons]
      push_neg
      exact ⟨hk10, by omega, by omega, itoa_not_mem_10 v.length⟩
    rw [hshape]
    unfold readStepRdr
    rw [readLine_append_cons _ _ hA10]
    dsimp only
    simp only [Bool.false_eq_true, if_false]
    unfold readStepBody
    dsimp only
    rw [if_neg ?gA]
    case gA =>
      push_neg
      refine ⟨?_, List.getLast?_concat _⟩
      simp only [List.length_append, List.length_cons]
      omega
    rw [if_neg ?gB]
    case gB =>
      intro he
      have h58 : 58 ∈ (k ++ 58 :: 43 :: itoa v.length) ++ [10] := by simp
      rw [he] at h58
      simp [recordSeparatorWithNL] at h58
    have hstrip :
        ((k ++ 58 :: 43 :: itoa v.length) ++ [10]).take
          (((k ++ 58 :: 43 :: itoa v.length) ++ [10]).length - 1) =
          k ++ 58 :: 43 :: itoa v.length := by
      have h1 : ((k ++ 58 :: 43 :: itoa v.length) ++ [10]).length - 1 =
          (k ++ 58 :: 43 :: itoa v.length).length := by simp
      rw [h1, List.take_left]
    rw [hstrip]
    rw [indexByte_append_cons 58 k (43 :: itoa v.length) hk58]
    dsimp only
    rw [take_at_append, drop_after_append]
    dsimp only
    rw [if_neg (by omega), if_neg (by omega), atoi_itoa v.length]
    dsimp only
    rw [if_neg (by omega), if_neg (by omega)]
    have hm : ((v.length : Int) + 1).toNat = v.length + 1 := by omega
    simp only [hm]
    rw [if_neg (by simp only [List.length_cons, List.length_append]; omega)]
    have hv1 : v ++ 10 :: s = (v ++ [10]) ++ s := by simp
    have hv2 : v.length + 1 = (v ++ [10]).length := by simp
    rw [hv1, hv2, List.take_left, List.drop_left]
    have hval : (v ++ [10]).take ((v ++ [10]).length - 1) = v := by
      have h1 : (v ++ [10]).length - 1 = v.length := by simp
      rw [h1, List.take_left]
    rw [hval]
    have harith :
        nb + ((k ++ 58 :: 43 :: itoa v.length) ++ [10]).length +
          (v ++ [10]).length = nb + (marshalEntry k v).length := by
      simp [marshalEntry, hlong, hnl]
      omega
    rw [harith]
  · -- short form
    have hascii : isASCII v = true := (needsLongFormat_false v
      (by simpa using hlong)).2.2
    have hv10 : ¬ 10 ∈ v := isASCII_not_mem_10 v hascii
    have hshape : marshalEntry k v ++ s = (k ++ 58 :: 32 :: v) ++ 10 :: s := by
      simp [marshalEntry, hlong]
    have hA10 : ¬ 10 ∈ k ++ 58 :: 32 :: v := by
      simp only [List.mem_append, List.mem_cons]
      push_neg
      exact ⟨hk10, by omega, by omega, hv10⟩
    rw [hshape]
    unfold readStepRdr
    rw [readLine_append_cons _ _ hA10]
    dsimp only
    simp only [Bool.false_eq_true, if_false]
    unfold readStepBody
    dsimp only
    rw [if_neg ?gA]
    case gA =>
      push_neg
      refine ⟨?_, List.getLast?_concat _⟩
      simp only [List.length_append, List.length_cons]
      omega
    rw [if_neg ?gB]
    case gB =>
      intro he
      have h58 : 58 ∈ (k ++ 58 :: 32 :: v) ++ [10] := by simp
      rw [he] at h58
      simp [recordSeparatorWithNL] at h58
    have hstrip : ((k ++ 58 :: 32 :: v) ++ [10]).take
        (((k ++ 58 :: 32 :: v) ++ [10]).length - 1) = k ++ 58 :: 32 :: v := by
      have h1 : ((k ++ 58 :: 32 :: v) ++ [10]).length - 1 =
          (k ++ 58 :: 32 :: v).length := by simp
      rw [h1, List.take_left]
    rw [hstrip]
    rw [indexByte_append_cons 58 k (32 :: v) hk58]
    dsimp only
    rw [take_at_append, drop_after_append]
    dsimp only
    rw [if_pos rfl]
    have harith : nb + ((k ++ 58 :: 32 :: v) ++ [10]).length =
        nb + (marshalEntry k v).length := by
      simp [marshalEntry, hlong]
    rw [harith]

theorem readStepRdr_sep (s : Str) (keys vals : List Str) (nb : Nat) :
    readStepRdr (recordSeparatorWithNL ++ s) keys vals nb =
      .ok (.done (nb + 4) keys vals s) := by
  have hshape : recordSeparatorWithNL ++ s = [45, 45, 45] ++ 10 :: s := rfl
  unfold readStepRdr
  rw [hshape, readLine_append_cons [45, 45, 45] s (by decide)]
  dsimp only
  simp only [Bool.false_eq_true, if_false]
  unfold readStepBody
  dsimp only
  rw [if_neg (by simp), if_pos (by rfl)]
  simp

theorem readRecGoRdr_marshal :
    ∀ (entries : List Entry) (keys vals : List Str) (nb : Nat) (s : Str)
      (f : Nat),
      keysOk entries = true →
      (∀ p ∈ entries, needsLongFormat p.2 = true →
        nonEmptyEndsWithNewline p.2 = false) →
      (marshal entries ++ recordSeparatorWithNL ++ s).length < f →
      readRecGoRdr f (marshal entries ++ recordSeparatorWithNL ++ s)
          keys vals nb =
        .ok (nb + (marshal entries).length + 4,
          keys ++ entries.map Prod.fst, vals ++ entries.map Prod.snd, s) := by
  intro entries
  induction entries with
  | nil =>
    intro keys vals nb s f _ _ hf
    obtain ⟨f1, rfl⟩ : ∃ f1, f = f1 + 1 := ⟨f - 1, by omega⟩
    simp only [marshal, List.nil_append]
    unfold readRecGoRdr
    rw [readStepRdr_sep s keys vals nb]
    simp [marshal]
  | cons e tl ih =>
    intro keys vals nb s f hk hsep hf
    obtain ⟨k, v⟩ := e
    obtain ⟨hk10, hk58, hktl⟩ := (keysOk_cons k v tl).mp hk
    obtain ⟨f1, rfl⟩ : ∃ f1, f = f1 + 1 := ⟨f - 1, by omega⟩
    have hshape : marshal ((k, v) :: tl) ++ recordSeparatorWithNL ++ s =
        marshalEntry k v ++ (marshal tl ++ recordSeparatorWithNL ++ s) := by
      simp [marshal]
    rw [hshape]
    unfold readRecGoRdr
    rw [readStepRdr_entry k v (marshal tl ++ recordSeparatorWithNL ++ s)
      keys vals nb hk10 hk58 (fun h => hsep (k, v) (List.mem_cons_self _ _) h)]
    dsimp only
    have hlen : (marshal tl ++ recordSeparatorWithNL ++ s).length < f1 := by
      have hpos := marshalEntry_length_pos k v
      rw [hshape] at hf
      simp only [List.length_append] at hf ⊢
      omega
    rw [ih (keys ++ [k]) (vals ++ [v]) (nb + (marshalEntry k v).length) s f1
      hktl (fun p hp h => hsep p (List.mem_cons_of_mem _ hp) h) hlen]
    simp only [marshal, List.length_append, List.map_cons, List.append_assoc,
      List.singleton_append]
    rw [Nat.add_assoc nb (marshalEntry k v).length (marshal tl).length]

/-- C7 counterexample: the record with the single entry ("k", "x\n") — a
long-form value ending in a newline, for which Marshal appends no separator
newline — is decoded by UnmarshalRecord, but the stream parser of reader.go,
which unconditionally consumes one byte after the n declared bytes, swallows
the first '-' of the separator line and then fails. -/
theorem parsers_disagree_counterexample :
    marshal [([107], [120, 10])] = [107, 58, 43, 50, 10, 120, 10] ∧
    UnmarshalRecord [107, 58, 43, 50, 10, 120, 10] =
      .ok [([107], [120, 10])] ∧
    readRecordRdr ([107, 58, 43, 50, 10, 120, 10] ++ recordSeparatorWithNL) =
      .error .lineFormat :=
  ⟨rfl, rfl, rfl⟩

/-- C7 amended: the stream parser consumes exactly one byte after the n
declared bytes of a long-form value unconditionally, while UnmarshalRecord
consumes a following newline only if present; the two therefore agree on
records all of whose long-form values are non-empty and do not end in a
newline (exactly when Marshal always inserts the separator newline): both
recover the entries, and the stream parser stops after the "---" line. -/
theorem parsers_agree (entries : List Entry)
    (hk : keysOk entries = true)
    (hsep : ∀ p ∈ entries, needsLongFormat p.2 = true →
      nonEmptyEndsWithNewline p.2 = false) :
    UnmarshalRecord (marshal entries) = .ok entries ∧
    readRecordRdr (marshal entries ++ recordSeparatorWithNL) =
      .ok ((marshal entries).length + 4,
        entries.map Prod.fst, entries.map Prod.snd, []) := by
  refine ⟨?_, ?_⟩
  · unfold UnmarshalRecord
    simpa using
      unmarshalGo_marshal entries [] ((marshal entries).length + 1) hk (by omega)
  unfold readRecordRdr
  have h := readRecGoRdr_marshal entries [] [] 0 []
    ((marshal entries ++ recordSeparatorWithNL ++ []).length + 1) hk hsep
    (by omega)
  simp only [List.append_nil] at h
  simpa using h

/-- Witness for C7 at a record with one short entry and one long non-ASCII
entry not ending in a newline. -/
theorem parsers_agree_witness :
    keysOk [([104], [118]), ([107], [200])] = true ∧
    (∀ p ∈ ([([104], [118]), ([107], [200])] : List Entry),
      needsLongFormat p.2 = true → nonEmptyEndsWithNewline p.2 = false) ∧
    UnmarshalRecord (marshal [([104], [118]), ([107], [200])]) =
      .ok [([104], [118]), ([107], [200])] ∧
    readRecordRdr (marshal [([104], [118]), ([107], [200])] ++
        recordSeparatorWithNL) =
      .ok ((marshal [([104], [118]), ([107], [200])]).length + 4,
        [[104], [107]], [[118], [200]], []) := by
  refine ⟨by decide, by decide, ?_⟩
  have h := parsers_agree [([104], [118]), ([107], [200])] (by decide)
    (by decide)
  exact ⟨h.1, h.2⟩

end Siser
